import Mathlib

/-!
Verification of the PDF-text core of the datasetbuilder-teplo repository.

The development shallowly embeds, from `src/js/pdf-processor.js` (version
5.0) and `src/js/jsonl-handler.js`, the three pieces of logic the claims
are about:

* the text normalizer `cleanText` — an ordered pipeline of character
  filters and regex-style replacements;
* the geometric layout reconstructor inside `extractText` — a fold over
  positioned text fragments that decides line breaks and word joins from
  page geometry;
* the JSONL serialization pair `toJSONL` / `fromJSONL` and the case-number
  normalizer `normalizeCaseNumber`.

JavaScript strings become Lean `String` / `List Char`; the JS whitespace
class, `trim`, and the regexes of `cleanText` are reproduced character by
character.  Page coordinates and thresholds are rationals (the JS numbers
in play are decimal literals and sums/quotients of them, which the
rational arithmetic reproduces exactly on the inputs of interest).
-/

/-- The JavaScript whitespace class (regex `\s` and `String.prototype.trim`):
tab, LF, VT, FF, CR, space, NBSP, Ogham space mark, the U+2000–U+200A range,
LS, PS, NNBSP, MMSP, ideographic space, and the BOM. -/
def jsIsWs (c : Char) : Bool :=
  let n := c.toNat
  (9 ≤ n && n ≤ 13) || n = 32 || n = 160 || n = 5760 ||
  (8192 ≤ n && n ≤ 8202) || n = 8232 || n = 8233 || n = 8239 ||
  n = 8287 || n = 12288 || n = 65279

/-- The sentence punctuation class `[.,;:!?]` used by `cleanText`. -/
def isPunct (c : Char) : Bool :=
  c = Char.ofNat 46 || c = Char.ofNat 44 || c = Char.ofNat 59 ||
  c = Char.ofNat 58 || c = Char.ofNat 33 || c = Char.ofNat 63

/-- The character class `[а-яА-ЯёЁ0-9]` of `cleanText`'s space-insertion
regex: lowercase and uppercase Cyrillic letters, ё/Ё, and ASCII digits. -/
def isRuAlnum (c : Char) : Bool :=
  let n := c.toNat
  (1072 ≤ n && n ≤ 1103) || (1040 ≤ n && n ≤ 1071) ||
  n = 1105 || n = 1025 || (48 ≤ n && n ≤ 57)

/-- The control-character class `[\x00-\x08\x0b\x0c\x0e-\x1f\x7f-\x9f]`
stripped by the first step of `cleanText` (tab, LF and CR survive). -/
def isStripCtrl (c : Char) : Bool :=
  let n := c.toNat
  n ≤ 8 || n = 11 || n = 12 || (14 ≤ n && n ≤ 31) || (127 ≤ n && n ≤ 159)

/-- `String.prototype.trim` on raw character lists: drop JS whitespace
from both ends. -/
def trimData (l : List Char) : List Char :=
  ((l.dropWhile jsIsWs).reverse.dropWhile jsIsWs).reverse

/-- JS `s.trim()`. -/
def jsTrim (s : String) : String := ⟨trimData s.data⟩

/-- JS `s.split(sep)` for a single-character separator: always returns at
least one (possibly empty) part. -/
def splitOnChar (sep : Char) : List Char → List (List Char)
  | [] => [[]]
  | c :: rest =>
    match splitOnChar sep rest with
    | [] => [[]]
    | s :: ss => if c = sep then [] :: s :: ss else (c :: s) :: ss

/-- JS `parts.join(sep)` for a single-character separator. -/
def joinWithChar (sep : Char) : List (List Char) → List Char
  | [] => []
  | [p] => p
  | p :: ps => p ++ sep :: joinWithChar sep ps

/-- Lookahead used by the `\s+([.,;:!?])` replacement: skipping leading
whitespace, is the next character sentence punctuation? -/
def wsThenPunct : List Char → Bool
  | [] => false
  | c :: rest => if jsIsWs c then wsThenPunct rest else isPunct c

/-- `text.replace(/\s+([.,;:!?])/g, '$1')`: a whitespace character is
dropped exactly when the first non-whitespace character after it is
sentence punctuation. -/
def rwbp : List Char → List Char
  | [] => []
  | c :: rest =>
    if jsIsWs c && wsThenPunct rest then rwbp rest else c :: rwbp rest

/-- `text.replace(/([.,;:!?])([а-яА-ЯёЁ0-9])/g, '$1 $2')`: insert a space
between punctuation and an immediately following Cyrillic letter or digit;
after a match the scan resumes past the matched pair. -/
def spa : List Char → List Char
  | [] => []
  | [c] => [c]
  | c1 :: c2 :: rest2 =>
    if isPunct c1 && isRuAlnum c2 then c1 :: ' ' :: c2 :: spa rest2
    else c1 :: spa (c2 :: rest2)

/-- Scanner for the `\n{3,}` → `\n\n` replacement; the accumulator counts
the newlines emitted immediately before the current position, so a newline
is dropped exactly when two newlines directly precede it. -/
def collapseNlAux : Nat → List Char → List Char
  | _, [] => []
  | k, c :: rest =>
    if c = '\n' then
      if 2 ≤ k then collapseNlAux k rest
      else '\n' :: collapseNlAux (k + 1) rest
    else c :: collapseNlAux 0 rest

/-- `text.replace(/\n{3,}/g, '\n\n')`: each maximal run of three or more
newlines keeps exactly its first two. -/
def collapseNl (l : List Char) : List Char := collapseNlAux 0 l

/-- Does the list contain three consecutive newline characters? -/
def hasTripleNl : List Char → Bool
  | '\n' :: '\n' :: '\n' :: _ => true
  | _ :: rest => hasTripleNl rest
  | [] => false

/-- One character of the fixed substitution table at the end of
`cleanText` (ligatures, dashes, quotes, ellipsis, bullet). -/
def substChar (c : Char) : List Char :=
  if c = Char.ofNat 0xFB01 then ['ф', 'и']
  else if c = Char.ofNat 0xFB02 then ['ф', 'л']
  else if c = Char.ofNat 0xFB00 then ['ф', 'ф']
  else if c = Char.ofNat 0xFB03 then ['ф', 'ф', 'и']
  else if c = Char.ofNat 0xFB04 then ['ф', 'ф', 'л']
  else if c = Char.ofNat 0x2013 then ['-']
  else if c = Char.ofNat 0x2014 then ['-']
  else if c = Char.ofNat 0x00AB then [Char.ofNat 34]
  else if c = Char.ofNat 0x00BB then [Char.ofNat 34]
  else if c = Char.ofNat 0x201E then [Char.ofNat 34]
  else if c = Char.ofNat 0x201A then [Char.ofNat 39]
  else if c = Char.ofNat 0x2026 then ['.', '.', '.']
  else if c = Char.ofNat 0x2022 then ['-']
  else [c]

/-- Is `c` one of the thirteen keys of the substitution table? -/
def isTableChar (c : Char) : Bool :=
  c = Char.ofNat 0xFB01 || c = Char.ofNat 0xFB02 || c = Char.ofNat 0xFB00 ||
  c = Char.ofNat 0xFB03 || c = Char.ofNat 0xFB04 || c = Char.ofNat 0x2013 ||
  c = Char.ofNat 0x2014 || c = Char.ofNat 0x00AB || c = Char.ofNat 0x00BB ||
  c = Char.ofNat 0x201E || c = Char.ofNat 0x201A || c = Char.ofNat 0x2026 ||
  c = Char.ofNat 0x2022

/-- The body of `PDFProcessor.cleanText` on character lists, step by step:
strip controls, tab→space, delete whitespace before punctuation, insert a
space after punctuation before Cyrillic/digit, collapse 3+ newlines, trim
every line and the whole text, then apply the substitution table. -/
def cleanPipeline (l : List Char) : List Char :=
  let l1 := l.filter (fun c => !isStripCtrl c)
  let l2 := l1.map (fun c => if c = '\t' then ' ' else c)
  let l3 := rwbp l2
  let l4 := spa l3
  let l5 := collapseNl l4
  let l6 := trimData (joinWithChar '\n' ((splitOnChar '\n' l5).map trimData))
  l6.flatMap substChar

/-- `PDFProcessor.cleanText` (src/js/pdf-processor.js, lines 113–135); the
`if (!text) return ''` guard makes the empty string an explicit fixpoint. -/
def cleanText (s : String) : String :=
  if s = "" then "" else ⟨cleanPipeline s.data⟩

/-- `cleanText` as called on a possibly `null`/`undefined` argument: both
falsy values take the `if (!text) return ''` early exit. -/
def cleanTextOpt : Option String → String
  | none => ""
  | some s => cleanText s

/-- A positioned text run, as consumed by the page loop of
`PDFProcessor.extractText`: the string `item.str`, the baseline origin
`item.transform[4]`/`item.transform[5]`, and the optional measured
`item.width` and `item.height`.  A measured value of `0` is falsy in the
source and triggers the same fallbacks as an absent one. -/
structure Frag where
  str : String
  x : ℚ
  y : ℚ
  width : Option ℚ
  height : Option ℚ
deriving DecidableEq

/-- The heights counted by the average-font-size loop: those `item.height`
values that are present and non-zero (JS truthiness of `item.height`). -/
def usableHeights (items : List Frag) : List ℚ :=
  items.filterMap (fun f =>
    match f.height with
    | some h => if h = 0 then none else some h
    | none => none)

/-- `avgFontSize = count > 0 ? totalHeight / count : 12` over a page's
items (src/js/pdf-processor.js, lines 33–42). -/
def avgFontSize (items : List Frag) : ℚ :=
  let hs := usableHeights items
  if hs.length = 0 then 12 else hs.sum / (hs.length : ℚ)

/-- `item.width || (item.str.length * avgFontSize * 0.6)`. -/
def effWidth (avg : ℚ) (f : Frag) : ℚ :=
  match f.width with
  | some w => if w = 0 then (f.str.length : ℚ) * avg * (3/5) else w
  | none => (f.str.length : ℚ) * avg * (3/5)

/-- The guard `!str || str.trim() === ''` that skips a fragment while
still recording it as `lastItem`. -/
def isBlankFrag (f : Frag) : Bool := jsTrim f.str = ""

/-- `currentLineParts.join('')`. -/
def joinParts (ps : List String) : String := ps.foldl (· ++ ·) ""

/-- The loop state of the reconstructor: finished lines, the parts of the
line being assembled, and the last fragment seen (blank or not). -/
structure RState where
  lines : List String
  cur : List String
  last : Option Frag
deriving DecidableEq

/-- One iteration of the fragment loop of `extractText`
(src/js/pdf-processor.js, lines 52–96): blank fragments only update
`lastItem`; otherwise the new-line test `deltaY > LINE_HEIGHT_THRESHOLD ||
x < lastX` flushes the current line, and within a line the gap against
`WORD_GAP_THRESHOLD` decides between `' ' + str` and `str`. -/
def step (wordGap lineGap avg : ℚ) (s : RState) (f : Frag) : RState :=
  if isBlankFrag f then { s with last := some f }
  else
    match s.last with
    | some l =>
      let lastXEnd := l.x + effWidth avg l
      let deltaY := |f.y - l.y|
      let gap := f.x - lastXEnd
      if deltaY > lineGap ∨ f.x < l.x then
        { lines := s.lines ++ (if s.cur.isEmpty then [] else [joinParts s.cur]),
          cur := [f.str], last := some f }
      else if gap > wordGap then
        { s with cur := s.cur ++ [" " ++ f.str], last := some f }
      else
        { s with cur := s.cur ++ [f.str], last := some f }
    | none => { s with cur := s.cur ++ [f.str], last := some f }

/-- The per-page layout reconstruction of `extractText`: thresholds
`avgFontSize * 0.15` and `avgFontSize * 0.3`, the fragment fold, and the
final flush of a non-empty current line. -/
def reconstructPage (items : List Frag) : List String :=
  let avg := avgFontSize items
  let wordGap := avg * (3/20)
  let lineGap := avg * (3/10)
  let final := items.foldl (step wordGap lineGap avg) ⟨[], [], none⟩
  final.lines ++ (if final.cur.isEmpty then [] else [joinParts final.cur])

/-- Count of non-whitespace characters (JS `\S`). -/
def nonWs (l : List Char) : Nat := l.countP (fun c => !jsIsWs c)

/-- `caseNumber.replace(/^[Aa]/, 'А')`: a leading Latin A or a is replaced
by the Cyrillic letter А. -/
def replLead (l : List Char) : List Char :=
  match l with
  | [] => []
  | c :: rest => if c = 'A' ∨ c = 'a' then 'А' :: rest else c :: rest

/-- The dash-to-slash rewrite of `JSONLHandler.normalizeCaseNumber`: when
the string splits on `-` into three or more parts and contains no `/`, the
final part becomes a `/`-separated year suffix. -/
def dashRewrite (l : List Char) : List Char :=
  let parts := splitOnChar '-' l
  if 3 ≤ parts.length ∧ '/' ∉ l then
    joinWithChar '-' parts.dropLast ++ '/' :: (parts.getLast?.getD [])
  else l

/-- `JSONLHandler.normalizeCaseNumber` (src/js/jsonl-handler.js, lines
11–24) on string inputs; the falsy guard returns `''` for `''`. -/
def normalizeCaseNumber (s : String) : String :=
  if s = "" then "" else ⟨dashRewrite (replLead s.data)⟩

/-- `JSONLHandler.toJSONL`: one `JSON.stringify` per entry, joined by
single newlines, abstracting over the serializer. -/
def toJSONL {α : Type} (stringify : α → String) (entries : List α) : String :=
  ⟨joinWithChar '\n' (entries.map (fun e => (stringify e).data))⟩

/-- The opening-brace character. -/
def lbrace : Char := Char.ofNat 123

/-- The closing-brace character. -/
def rbrace : Char := Char.ofNat 125

/-- The body of `fromJSONL`'s line loop: trim the line, skip it when empty
or when it does not start with an opening brace, otherwise parse it
(`none` models a `JSON.parse` exception, which the source logs and skips),
normalize a truthy `case_number`, and append the record. -/
def jsonlLineStep {α : Type} (parse : String → Option α) (getCN : α → String)
    (setCN : α → String → α) (acc : List α) (ld : List Char) : List α :=
  let line : String := ⟨trimData ld⟩
  if line = "" then acc
  else if line.data.head? ≠ some lbrace then acc
  else
    match parse line with
    | some e =>
      let e2 := if getCN e = "" then e else setCN e (normalizeCaseNumber (getCN e))
      acc ++ [e2]
    | none => acc

/-- `JSONLHandler.fromJSONL` (src/js/jsonl-handler.js, lines 77–121),
abstracting `JSON.parse` of one line into `parse` and record field access
into `getCN`/`setCN`: trim the input, split on newlines, and run the line
loop. -/
def fromJSONL {α : Type} (parse : String → Option α) (getCN : α → String)
    (setCN : α → String → α) (input : String) : List α :=
  (splitOnChar '\n' (jsTrim input).data).foldl (jsonlLineStep parse getCN setCN) []

theorem collapseNlAux_of_head_ne (k k' : Nat) (l : List Char)
    (h : l.head? ≠ some '\n') : collapseNlAux k l = collapseNlAux k' l := by
  cases l with
  | nil => rfl
  | cons c rest =>
    have hc : c ≠ '\n' := fun e => h (by rw [e]; rfl)
    simp only [collapseNlAux, if_neg hc]

theorem collapseNl_nil : collapseNl [] = [] := rfl

theorem collapseNl_triple (rest : List Char) :
    collapseNl ('\n' :: '\n' :: '\n' :: rest) = collapseNl ('\n' :: '\n' :: rest) := rfl

theorem collapseNl_cons (c : Char) (rest : List Char)
    (h : ∀ r, c = '\n' → rest = '\n' :: '\n' :: r → False) :
    collapseNl (c :: rest) = c :: collapseNl rest := by
  by_cases hc : c = '\n'
  · subst hc
    show '\n' :: collapseNlAux 1 rest = '\n' :: collapseNlAux 0 rest
    cases rest with
    | nil => rfl
    | cons d rest2 =>
      by_cases hd : d = '\n'
      · subst hd
        have h2 : rest2.head? ≠ some '\n' := by
          intro he
          cases rest2 with
          | nil => cases he
          | cons e rr =>
            injection he with he
            exact h rr rfl (by rw [he])
        show '\n' :: '\n' :: collapseNlAux 2 rest2 = '\n' :: '\n' :: collapseNlAux 1 rest2
        rw [collapseNlAux_of_head_ne 2 1 rest2 h2]
      · simp only [collapseNlAux, if_neg hd]
  · show collapseNlAux 0 (c :: rest) = c :: collapseNlAux 0 rest
    simp only [collapseNlAux, if_neg hc]

theorem collapseNlRec (motive : List Char → Prop)
    (h1 : ∀ rest, motive ('\n' :: '\n' :: rest) → motive ('\n' :: '\n' :: '\n' :: rest))
    (h2 : ∀ c rest, (∀ r, c = '\n' → rest = '\n' :: '\n' :: r → False) →
      motive rest → motive (c :: rest))
    (h3 : motive [])
    (l : List Char) : motive l := by
  have H : ∀ (n : Nat) (l : List Char), l.length = n → motive l := by
    intro n
    induction n using Nat.strong_induction_on with
    | _ n ih =>
    intro l hn
    subst hn
    match l with
    | [] => exact h3
    | c :: rest =>
      by_cases hsh : c = '\n' ∧ ∃ r, rest = '\n' :: '\n' :: r
      · obtain ⟨hc, r, hr⟩ := hsh
        subst hc; subst hr
        exact h1 r (ih _ (by simp) _ rfl)
      · exact h2 c rest (fun r hc hr => hsh ⟨hc, r, hr⟩) (ih _ (by simp) _ rfl)
  exact H l.length l rfl

theorem collapseNl_head (l : List Char) : (collapseNl l).head? = l.head? := by
  induction l using collapseNlRec with
  | h1 rest ih => rw [collapseNl_triple, ih]; rfl
  | h2 c rest h ih => rw [collapseNl_cons c rest h]; rfl
  | h3 => rfl

theorem collapseNl_take2 (l : List Char) : (collapseNl l).take 2 = l.take 2 := by
  induction l using collapseNlRec with
  | h1 rest ih => rw [collapseNl_triple, ih]; rfl
  | h2 c rest h ih =>
      rw [collapseNl_cons c rest h]
      simp only [List.take_succ_cons, List.take_one, collapseNl_head]
  | h3 => rfl

theorem hasTripleNl_cons (c : Char) (rest : List Char)
    (h : ∀ r, c = '\n' → rest = '\n' :: '\n' :: r → False) :
    hasTripleNl (c :: rest) = hasTripleNl rest := by
  rw [hasTripleNl.eq_def]
  split
  · rename_i w heq
    exfalso
    rw [List.cons_eq_cons] at heq
    exact h w heq.1 heq.2
  · rename_i c2 rest2 heq
    rw [List.cons_eq_cons] at heq
    rw [heq.2]
  · rename_i heq
    exact absurd heq (List.cons_ne_nil c rest)

theorem collapseNl_noTriple (l : List Char) : hasTripleNl (collapseNl l) = false := by
  induction l using collapseNlRec with
  | h1 rest ih => rw [collapseNl_triple]; exact ih
  | h2 c rest h ih =>
      rw [collapseNl_cons c rest h]
      rcases hv : collapseNl rest with _ | ⟨d, _ | ⟨e, w⟩⟩
      · rw [hasTripleNl_cons c [] (by intro r _ hr; cases hr)]
        rfl
      · rw [hasTripleNl_cons c [d] (by intro r _ hr; simp at hr),
            hasTripleNl_cons d [] (by intro r _ hr; cases hr)]
        rfl
      · rw [hv] at ih
        by_cases hde : d = '\n' ∧ e = '\n'
        · obtain ⟨hd, he⟩ := hde
          subst hd; subst he
          by_cases hc : c = '\n'
          · exfalso
            have h2 := collapseNl_take2 rest
            rw [hv] at h2
            match rest, h2 with
            | r1 :: r2 :: rr, h2 =>
              simp only [List.take_succ_cons, List.take_zero, List.cons_eq_cons] at h2
              obtain ⟨h21, h22, -⟩ := h2
              exact h rr hc (by rw [← h21, ← h22])
          · rw [hasTripleNl_cons c _ (by intro r hc2 _; exact hc hc2)]
            exact ih
        · rw [hasTripleNl_cons c _ (by
              intro r _ hr
              rw [List.cons_eq_cons] at hr
              exact hde ⟨hr.1, (List.cons_eq_cons.mp hr.2).1⟩)]
          exact ih
  | h3 => rfl

/-- Input whose whitespace-only blank lines survive blank-line collapse
and are only emptied by the later per-line trim. -/
def c4badIn : String := "a\n \n \nb"

/-- What `cleanText` actually returns for `c4badIn`: three consecutive
newlines. -/
def c4badOut : String := "a\n\n\nb"

/-- A word, five newlines, a word. -/
def c4in5 : String := "a\n\n\n\n\nb"

/-- A word, two newlines, a word. -/
def c4out2 : String := "a\n\nb"

/-- C4 counterexample: the normalizer's output can contain three
consecutive newlines.  On `"a\n \n \nb"` the `\n{3,}` collapse (which runs
before per-line trimming) sees no three consecutive newlines, and the
subsequent per-line trim empties the two whitespace-only lines, leaving
`"a\n\n\nb"`. -/
theorem cleanText_triple_newline_output :
    cleanText c4badIn = c4badOut ∧ hasTripleNl (cleanText c4badIn).data = true := by
  constructor
  · decide
  · decide

/-- C4 (amended): the blank-line-collapse step itself never leaves three
consecutive newlines, and a string of five consecutive newlines between
words normalizes to exactly two; but per-line trimming runs after the
collapse, so whitespace-only lines can still produce three or more
newlines in the final output. -/
theorem collapseNl_bounds_newline_runs :
    (∀ l : List Char, hasTripleNl (collapseNl l) = false) ∧
      cleanText c4in5 = c4out2 :=
  ⟨collapseNl_noTriple, by decide⟩

/-- A lone interior carriage return. -/
def c5crIn : String := "a\rb"

/-- A CRLF pair between words. -/
def c5crlfIn : String := "a\r\nb"

/-- The CRLF input after normalization: a bare newline. -/
def c5crlfOut : String := "a\nb"

/-- C5 counterexample: `cleanText` contains no `\r` → `\n` replacement
(the control-character strip spares 0x0D and no later step rewrites it),
so a lone interior carriage return survives into the output. -/
theorem cleanText_keeps_lone_cr : Char.ofNat 13 ∈ (cleanText c5crIn).data := by decide

/-- C5 (amended): a `\r` adjacent to a newline is removed by per-line
trimming, so `\r\n` does become `\n`; but a lone interior `\r` is
preserved unchanged rather than converted to `\n`. -/
theorem cleanText_cr_actual :
    cleanText c5crlfIn = c5crlfOut ∧ cleanText c5crIn = c5crIn := by
  constructor
  · decide
  · decide

/-- C8: the normalizer is total with the empty string as the value of all
falsy inputs (`''`, `null`, `undefined`), and reconstructing a page with
no fragments yields an empty line list rather than an error. -/
theorem core_empty_input_safety :
    cleanTextOpt none = "" ∧ cleanTextOpt (some "") = "" ∧
      reconstructPage [] = ([] : List String) :=
  ⟨rfl, rfl, rfl⟩

theorem punct_not_ws (p : Char) (hp : isPunct p = true) : jsIsWs p = false := by
  simp only [isPunct, Bool.or_eq_true, decide_eq_true_eq] at hp
  rcases hp with ((((h | h) | h) | h) | h) | h <;> subst h <;> decide

theorem ruAlnum_not_ws (a : Char) (ha : isRuAlnum a = true) : jsIsWs a = false := by
  simp only [isRuAlnum, Bool.or_eq_true, Bool.and_eq_true, decide_eq_true_eq] at ha
  simp only [jsIsWs, Bool.or_eq_false_iff, Bool.and_eq_false_iff,
    decide_eq_false_iff_not]
  omega

theorem ruAlnum_not_punct (a : Char) (ha : isRuAlnum a = true) : isPunct a = false := by
  cases hq : isPunct a with
  | false => rfl
  | true =>
    exfalso
    have h1 : 48 ≤ a.toNat ∧ a.toNat ≤ 57 ∨ 1025 ≤ a.toNat := by
      simp only [isRuAlnum, Bool.or_eq_true, Bool.and_eq_true, decide_eq_true_eq] at ha
      omega
    simp only [isPunct, Bool.or_eq_true, decide_eq_true_eq] at hq
    have h2 : a.toNat = 46 ∨ a.toNat = 44 ∨ a.toNat = 59 ∨ a.toNat = 58 ∨
        a.toNat = 33 ∨ a.toNat = 63 := by
      rcases hq with ((((h | h) | h) | h) | h) | h <;> subst h <;> decide
    omega

theorem wsThenPunct_ws_run (run : List Char) (p : Char) (rest : List Char)
    (hws : ∀ c ∈ run, jsIsWs c = true) (hp : isPunct p = true) :
    wsThenPunct (run ++ p :: rest) = true := by
  induction run with
  | nil => simp [wsThenPunct, punct_not_ws p hp, hp]
  | cons c run' ih =>
      have hc := hws c (List.mem_cons_self c run')
      simp only [List.cons_append, wsThenPunct, hc, if_pos]
      exact ih (fun d hd => hws d (List.mem_cons_of_mem c hd))

theorem rwbp_drops_ws_run (run : List Char) (p : Char) (rest : List Char)
    (hne : run ≠ []) (hws : ∀ c ∈ run, jsIsWs c = true) (hp : isPunct p = true) :
    rwbp (run ++ p :: rest) = rwbp (p :: rest) := by
  induction run with
  | nil => rfl
  | cons c run' ih =>
      have hc := hws c (List.mem_cons_self c run')
      have hwtp : wsThenPunct (run' ++ p :: rest) = true :=
        wsThenPunct_ws_run run' p rest (fun d hd => hws d (List.mem_cons_of_mem c hd)) hp
      have hstep : rwbp (c :: (run' ++ p :: rest)) = rwbp (run' ++ p :: rest) := by
        simp [rwbp, hc, hwtp]
      rw [List.cons_append, hstep]
      cases run' with
      | nil => rfl
      | cons d run'' =>
          exact ih (List.cons_ne_nil d run'') (fun e he => hws e (List.mem_cons_of_mem c he))

theorem spa_inserts_space (p a : Char) (rest : List Char)
    (hp : isPunct p = true) (ha : isRuAlnum a = true) :
    spa (p :: a :: rest) = p :: ' ' :: a :: spa rest := by
  simp [spa, hp, ha]

def c3exIn : String := "текст ,далее"
def c3exOut : String := "текст, далее"

theorem cleanText_punct_repair :
    (∀ (run : List Char) (p : Char) (rest : List Char), run ≠ [] →
        (∀ c ∈ run, jsIsWs c = true) → isPunct p = true →
        rwbp (run ++ p :: rest) = rwbp (p :: rest)) ∧
    (∀ (p a : Char) (rest : List Char), isPunct p = true → isRuAlnum a = true →
        spa (p :: a :: rest) = p :: ' ' :: a :: spa rest) ∧
    cleanText c3exIn = c3exOut :=
  ⟨rwbp_drops_ws_run, spa_inserts_space, by decide⟩

theorem cleanText_punct_repair_witness :
    rwbp (' ' :: ',' :: 'б' :: []) = rwbp (',' :: 'б' :: []) ∧
      spa (',' :: 'б' :: []) = ',' :: ' ' :: 'б' :: [] :=
  ⟨cleanText_punct_repair.1 [' '] ',' ['б'] (by decide) (by decide) (by decide),
   cleanText_punct_repair.2.1 ',' 'б' [] (by decide) (by decide)⟩

def c3latIn : String := "а.b"
def c3latPredicted : String := "а. b"

theorem cleanText_no_latin_space_insertion :
    cleanText c3latIn = c3latIn ∧ cleanText c3latIn ≠ c3latPredicted := by
  constructor
  · decide
  · decide

theorem joinParts_append_single (ps : List String) (s : String) :
    joinParts (ps ++ [s]) = joinParts ps ++ s := by
  simp [joinParts, List.foldl_append]

theorem joinParts_single (s : String) : joinParts [s] = "" ++ s := rfl

theorem string_empty_append (s : String) : "" ++ s = s := by
  apply String.ext
  show ("".data ++ s.data) = s.data
  rfl

theorem step_same_line (wg lg avg : ℚ) (s : RState) (f l : Frag)
    (hb : isBlankFrag f = false) (hl : s.last = some l)
    (hy : |f.y - l.y| ≤ lg) (hx : l.x ≤ f.x) :
    (f.x - (l.x + effWidth avg l) ≤ wg →
        step wg lg avg s f = ⟨s.lines, s.cur ++ [f.str], some f⟩) ∧
    (wg < f.x - (l.x + effWidth avg l) →
        step wg lg avg s f = ⟨s.lines, s.cur ++ [" " ++ f.str], some f⟩) := by
  have hcond : ¬ (|f.y - l.y| > lg ∨ f.x < l.x) := by
    push_neg
    exact ⟨hy, hx⟩
  constructor
  · intro hgap
    simp only [step, hb, Bool.false_eq_true, if_false, hl]
    rw [if_neg hcond, if_neg (not_lt.mpr hgap)]
  · intro hgap
    simp only [step, hb, Bool.false_eq_true, if_false, hl]
    rw [if_neg hcond, if_pos hgap]

theorem reconstructPage_pair_join (f1 f2 : Frag)
    (hb1 : isBlankFrag f1 = false) (hb2 : isBlankFrag f2 = false)
    (hy : |f2.y - f1.y| ≤ avgFontSize [f1, f2] * (3/10))
    (hx : f1.x ≤ f2.x)
    (hgap : f2.x - (f1.x + effWidth (avgFontSize [f1, f2]) f1)
        ≤ avgFontSize [f1, f2] * (3/20)) :
    reconstructPage [f1, f2] = [f1.str ++ f2.str] := by
  have h1 : step (avgFontSize [f1, f2] * (3/20)) (avgFontSize [f1, f2] * (3/10))
      (avgFontSize [f1, f2]) ⟨[], [], none⟩ f1 = ⟨[], [f1.str], some f1⟩ := by
    simp only [step, hb1, Bool.false_eq_true, if_false]
    rfl
  have h2 := (step_same_line (avgFontSize [f1, f2] * (3/20)) (avgFontSize [f1, f2] * (3/10))
      (avgFontSize [f1, f2]) ⟨[], [f1.str], some f1⟩ f2 f1 hb2 rfl hy hx).1 hgap
  show (List.foldl (step _ _ _) ⟨[], [], none⟩ [f1, f2]).lines ++ _ = _
  rw [List.foldl_cons, List.foldl_cons, List.foldl_nil, h1, h2]
  show [joinParts ([f1.str] ++ [f2.str])] = [f1.str ++ f2.str]
  rw [joinParts_append_single, joinParts_single, string_empty_append]

def c1str1 : String := "рассмотре"
def c1str2 : String := "л"
def c1line : String := "рассмотрел"
def c1frag1 : Frag := ⟨c1str1, 0, 0, some 50, some 12⟩
def c1frag2 : Frag := ⟨c1str2, 101/2, 0, some 5, some 12⟩

theorem c1avg : avgFontSize [c1frag1, c1frag2] = 12 := by
  have h : usableHeights [c1frag1, c1frag2] = [12, 12] := by
    simp [usableHeights, c1frag1, c1frag2, List.filterMap_cons]
  rw [avgFontSize, h]
  norm_num

theorem c1concrete : reconstructPage [c1frag1, c1frag2] = [c1line] := by
  have h := reconstructPage_pair_join c1frag1 c1frag2 (by decide) (by decide)
    (by rw [c1avg]; norm_num [c1frag1, c1frag2])
    (by norm_num [c1frag1, c1frag2])
    (by rw [c1avg]; norm_num [c1frag1, c1frag2, effWidth])
  rw [h]
  decide

/-- C1: for two consecutive non-blank fragments on the same line (deltaY
within the line threshold and x not left of the previous fragment), the
reconstructor appends the text bare when the gap against the previous
fragment's end-X is at most the word-gap threshold and prepends a single
space when the gap exceeds it; in particular the split word
"рассмотре"+"л" at x=0/width=50 and x=50.5 with average font size 12
reconstructs to the single line "рассмотрел". -/
theorem step_word_join (wg lg avg : ℚ) (s : RState) (f l : Frag)
    (hb : isBlankFrag f = false) (hl : s.last = some l)
    (hy : |f.y - l.y| ≤ lg) (hx : l.x ≤ f.x) :
    ((f.x - (l.x + effWidth avg l) ≤ wg →
        step wg lg avg s f = ⟨s.lines, s.cur ++ [f.str], some f⟩) ∧
     (wg < f.x - (l.x + effWidth avg l) →
        step wg lg avg s f = ⟨s.lines, s.cur ++ [" " ++ f.str], some f⟩)) ∧
    reconstructPage [c1frag1, c1frag2] = [c1line] :=
  ⟨step_same_line wg lg avg s f l hb hl hy hx, c1concrete⟩

theorem step_word_join_witness :
    step (9/5) (18/5) 12 ⟨[], [c1str1], some c1frag1⟩ c1frag2
        = ⟨[], [c1str1, c1str2], some c1frag2⟩ ∧
      reconstructPage [c1frag1, c1frag2] = [c1line] := by
  have h := step_word_join (9/5) (18/5) 12 ⟨[], [c1str1], some c1frag1⟩ c1frag2 c1frag1
      (by decide) rfl (by norm_num [c1frag1, c1frag2]) (by norm_num [c1frag1, c1frag2])
  exact ⟨h.1.1 (by norm_num [c1frag1, c1frag2, effWidth]), h.2⟩

def w6aStr : String := "Иванов"
def w6bStr : String := "подал"
def w6a : Frag := ⟨w6aStr, 0, 100, some 60, some 12⟩
def w6b : Frag := ⟨w6bStr, 0, 80, some 50, some 12⟩

/-- C6: a non-blank fragment starts a new line exactly when, against the
last tracked fragment, |y - last.y| exceeds the line threshold or x <
last.x; on a new line the accumulated line is flushed (if non-empty) and
the current line resets to this fragment's text; consequently two
non-blank fragments whose deltaY exceeds the threshold always land on two
separate lines, regardless of their x positions. -/
theorem step_line_break (wg lg avg : ℚ) (s : RState) (f l : Frag)
    (hb : isBlankFrag f = false) (hl : s.last = some l) :
    (step wg lg avg s f =
      if |f.y - l.y| > lg ∨ f.x < l.x then
        ⟨s.lines ++ (if s.cur.isEmpty then [] else [joinParts s.cur]), [f.str], some f⟩
      else if wg < f.x - (l.x + effWidth avg l) then
        ⟨s.lines, s.cur ++ [" " ++ f.str], some f⟩
      else ⟨s.lines, s.cur ++ [f.str], some f⟩) ∧
    ∀ f1 f2 : Frag, isBlankFrag f1 = false → isBlankFrag f2 = false →
      avgFontSize [f1, f2] * (3 / 10) < |f2.y - f1.y| →
      reconstructPage [f1, f2] = [f1.str, f2.str] := by
  constructor
  · simp only [step, hb, Bool.false_eq_true, if_false, hl]
  · intro f1 f2 hb1 hb2 hy
    have h1 : step (avgFontSize [f1, f2] * (3/20)) (avgFontSize [f1, f2] * (3/10))
        (avgFontSize [f1, f2]) ⟨[], [], none⟩ f1 = ⟨[], [f1.str], some f1⟩ := by
      simp only [step, hb1, Bool.false_eq_true, if_false]
      rfl
    have h2 : step (avgFontSize [f1, f2] * (3/20)) (avgFontSize [f1, f2] * (3/10))
        (avgFontSize [f1, f2]) ⟨[], [f1.str], some f1⟩ f2
        = ⟨[joinParts [f1.str]], [f2.str], some f2⟩ := by
      simp only [step, hb2, Bool.false_eq_true, if_false]
      rw [if_pos (Or.inl hy)]
      rfl
    show (List.foldl (step _ _ _) ⟨[], [], none⟩ [f1, f2]).lines ++ _ = _
    rw [List.foldl_cons, List.foldl_cons, List.foldl_nil, h1, h2]
    show [joinParts [f1.str]] ++ [joinParts [f2.str]] = [f1.str, f2.str]
    rw [joinParts_single, joinParts_single, string_empty_append, string_empty_append]
    rfl

theorem step_line_break_witness :
    reconstructPage [w6a, w6b] = [w6aStr, w6bStr] :=
  (step_line_break 1 1 1 ⟨[], [], some w6a⟩ w6b w6a (by decide) rfl).2 w6a w6b
    (by decide) (by decide)
    (by
      have h : usableHeights [w6a, w6b] = [12, 12] := by
        simp [usableHeights, w6a, w6b, List.filterMap_cons]
      rw [avgFontSize, h]
      norm_num [w6a, w6b])

theorem nonWs_append (a b : List Char) : nonWs (a ++ b) = nonWs a + nonWs b :=
  List.countP_append _ a b

theorem nonWs_str_append (a b : String) :
    nonWs (a ++ b).data = nonWs a.data + nonWs b.data := by
  rw [String.data_append, nonWs_append]

theorem trimData_nil_all_ws (l : List Char) (h : trimData l = []) :
    ∀ c ∈ l, jsIsWs c = true := by
  have h1 : (l.dropWhile jsIsWs).reverse.dropWhile jsIsWs = [] :=
    List.reverse_eq_nil_iff.mp h
  have h2 : ∀ c ∈ (l.dropWhile jsIsWs).reverse, jsIsWs c = true :=
    List.dropWhile_eq_nil_iff.mp h1
  have h3 : ∀ c ∈ l.dropWhile jsIsWs, jsIsWs c = true := by
    intro c hc
    exact h2 c (List.mem_reverse.mpr hc)
  intro c hc
  rw [← List.takeWhile_append_dropWhile jsIsWs l] at hc
  rcases List.mem_append.mp hc with h4 | h4
  · exact List.mem_takeWhile_imp h4
  · exact h3 c h4

theorem blank_frag_nonWs (f : Frag) (h : isBlankFrag f = true) :
    nonWs f.str.data = 0 := by
  have ht : trimData f.str.data = [] := by
    have : jsTrim f.str = "" := by
      simpa [isBlankFrag] using h
    have := congrArg String.data this
    simpa [jsTrim] using this
  rw [nonWs, List.countP_eq_zero]
  intro c hc
  simp [trimData_nil_all_ws f.str.data ht c hc]

/-- The conserved measure: non-whitespace characters in finished lines
plus those in the line under construction. -/
def stCount (s : RState) : Nat :=
  (s.lines.map (fun t => nonWs t.data)).sum + nonWs (joinParts s.cur).data

theorem step_count (wg lg avg : ℚ) (s : RState) (f : Frag) :
    stCount (step wg lg avg s f) = stCount s + nonWs f.str.data := by
  by_cases hbl : isBlankFrag f = true
  · rw [blank_frag_nonWs f hbl]
    simp [step, hbl, stCount]
  · have hb : isBlankFrag f = false := by simpa using hbl
    match hl : s.last with
    | none =>
      simp only [step, hb, Bool.false_eq_true, if_false, hl, stCount,
        joinParts_append_single, nonWs_str_append]
      ring
    | some l =>
      simp only [step, hb, Bool.false_eq_true, if_false, hl]
      by_cases hnl : (|f.y - l.y| > lg ∨ f.x < l.x)
      · rw [if_pos hnl]
        by_cases hcur : s.cur.isEmpty
        · have hc : s.cur = [] := by simpa [List.isEmpty_iff] using hcur
          simp [stCount, hc, joinParts, string_empty_append, nonWs]
        · have hc : ¬ (s.cur.isEmpty = true) := hcur
          simp only [stCount, if_neg hc, List.map_append, List.sum_append,
            List.map_cons, List.map_nil, List.sum_cons, List.sum_nil]
          rw [joinParts_single, string_empty_append]
          ring
      · rw [if_neg hnl]
        by_cases hgap : f.x - (l.x + effWidth avg l) > wg
        · rw [if_pos hgap]
          have hsp : nonWs (" " : String).data = 0 := by decide
          simp only [stCount, joinParts_append_single, nonWs_str_append, hsp]
          ring
        · rw [if_neg hgap]
          simp only [stCount, joinParts_append_single, nonWs_str_append]
          ring

theorem foldl_step_count (wg lg avg : ℚ) (items : List Frag) (s0 : RState) :
    stCount (List.foldl (step wg lg avg) s0 items)
      = stCount s0 + (items.map (fun f => nonWs f.str.data)).sum := by
  induction items generalizing s0 with
  | nil => simp
  | cons f items ih =>
      rw [List.foldl_cons, ih, step_count]
      simp [Nat.add_assoc]

/-- C7: every fragment whose trimmed text is non-empty contributes its
text to exactly one output line and blank fragments contribute nothing
(while still updating the last-seen fragment), so the total count of
non-whitespace characters over the reconstructed lines equals the sum of
non-whitespace characters over the input fragments (blank fragments being
all-whitespace contribute zero to that sum). -/
theorem reconstructPage_char_conservation :
    (∀ items : List Frag, ((reconstructPage items).map (fun t => nonWs t.data)).sum
        = (items.map (fun f => nonWs f.str.data)).sum) ∧
    (∀ (wg lg avg : ℚ) (s : RState) (f : Frag), isBlankFrag f = true →
        step wg lg avg s f = ⟨s.lines, s.cur, some f⟩) := by
  constructor
  · intro items
    show ((
      (List.foldl (step _ _ _) ⟨[], [], none⟩ items).lines ++
        (if (List.foldl (step _ _ _) ⟨[], [], none⟩ items).cur.isEmpty then []
          else [joinParts (List.foldl (step _ _ _) ⟨[], [], none⟩ items).cur])).map
            (fun t => nonWs t.data)).sum = _
    have hf := foldl_step_count (avgFontSize items * (3/20)) (avgFontSize items * (3/10))
      (avgFontSize items) items ⟨[], [], none⟩
    have h0 : stCount ⟨[], [], none⟩ = 0 := by
      simp [stCount, joinParts, nonWs]
    rw [h0, Nat.zero_add] at hf
    rw [← hf]
    set fin := List.foldl (step (avgFontSize items * (3/20)) (avgFontSize items * (3/10))
      (avgFontSize items)) ⟨[], [], none⟩ items with hfin
    by_cases hcur : fin.cur.isEmpty
    · have hc : fin.cur = [] := by simpa [List.isEmpty_iff] using hcur
      simp [stCount, hc, joinParts, nonWs]
    · have hc2 : fin.cur ≠ [] := by simpa [List.isEmpty_iff] using hcur
      simp [stCount, hc2]
  · intro wg lg avg s f hbl
    simp [step, hbl]

def blankFrag : Frag := ⟨" ", 0, 0, none, none⟩

theorem reconstructPage_char_conservation_witness :
    ((reconstructPage [w6a, w6b]).map (fun t => nonWs t.data)).sum
        = ([w6a, w6b].map (fun f => nonWs f.str.data)).sum ∧
      step 1 1 1 ⟨[], [], none⟩ blankFrag = ⟨[], [], some blankFrag⟩ :=
  ⟨reconstructPage_char_conservation.1 [w6a, w6b],
   reconstructPage_char_conservation.2 1 1 1 ⟨[], [], none⟩ blankFrag (by decide)⟩

theorem splitOnChar_ne_nil (sep : Char) (l : List Char) : splitOnChar sep l ≠ [] := by
  cases l with
  | nil => simp [splitOnChar]
  | cons c rest =>
      simp only [splitOnChar]
      cases h : splitOnChar sep rest with
      | nil => simp
      | cons s ss => by_cases hc : c = sep <;> simp [hc]

theorem joinWithChar_cons (sep : Char) (p : List Char) (ps : List (List Char))
    (h : ps ≠ []) :
    joinWithChar sep (p :: ps) = p ++ sep :: joinWithChar sep ps := by
  cases ps with
  | nil => exact absurd rfl h
  | cons q qs => rfl

theorem join_split (sep : Char) (l : List Char) :
    joinWithChar sep (splitOnChar sep l) = l := by
  induction l with
  | nil => rfl
  | cons c rest ih =>
      simp only [splitOnChar]
      cases h : splitOnChar sep rest with
      | nil => exact absurd h (splitOnChar_ne_nil sep rest)
      | cons s ss =>
          rw [h] at ih
          by_cases hc : c = sep
          · subst hc
            simp only [eq_self_iff_true, if_true]
            rw [joinWithChar_cons _ _ _ (List.cons_ne_nil s ss), ih]
            rfl
          · simp only [if_neg hc]
            cases ss with
            | nil =>
                have hs : s = rest := ih
                rw [← hs]
                rfl
            | cons t ts =>
                rw [joinWithChar_cons _ _ _ (List.cons_ne_nil t ts)] at ih
                rw [joinWithChar_cons _ _ _ (List.cons_ne_nil t ts), List.cons_append, ih]

theorem replLead_head (l : List Char) :
    (replLead l).head? ≠ some 'A' ∧ (replLead l).head? ≠ some 'a' := by
  cases l with
  | nil => simp [replLead]
  | cons c rest =>
      by_cases hc : c = 'A' ∨ c = 'a'
      · simp [replLead, hc]
      · push_neg at hc
        simp [replLead, hc]

theorem replLead_id (l : List Char) (h1 : l.head? ≠ some 'A')
    (h2 : l.head? ≠ some 'a') : replLead l = l := by
  cases l with
  | nil => rfl
  | cons c rest =>
      have hc : ¬ (c = 'A' ∨ c = 'a') := by
        rintro (h | h) <;> subst h
        · exact h1 rfl
        · exact h2 rfl
      simp [replLead, hc]

theorem replLead_nil_iff (l : List Char) : replLead l = [] ↔ l = [] := by
  cases l with
  | nil => simp [replLead]
  | cons c rest =>
      by_cases hc : c = 'A' ∨ c = 'a' <;> simp [replLead, hc]

theorem dashRewrite_id_of_mem (l : List Char) (h : '/' ∈ l) : dashRewrite l = l := by
  have hcond : ¬ (3 ≤ (splitOnChar '-' l).length ∧ '/' ∉ l) := by
    rintro ⟨-, habs⟩
    exact habs h
  simp only [dashRewrite, if_neg hcond]

theorem dashRewrite_cases (l : List Char) :
    dashRewrite l = l ∨
      ('/' ∈ dashRewrite l ∧ (dashRewrite l).head? = l.head?) := by
  by_cases hcond : 3 ≤ (splitOnChar '-' l).length ∧ '/' ∉ l
  · right
    obtain ⟨hlen, hslash⟩ := hcond
    have hl : joinWithChar '-' (splitOnChar '-' l) = l := join_split '-' l
    simp only [dashRewrite, if_pos (And.intro hlen hslash)]
    rcases hsp : splitOnChar '-' l with _ | ⟨p1, _ | ⟨p2, _ | ⟨p3, ps⟩⟩⟩
    · rw [hsp] at hlen; simp at hlen
    · rw [hsp] at hlen; simp at hlen
    · rw [hsp] at hlen; simp at hlen
    · rw [hsp] at hl
      constructor
      · exact List.mem_append_right _ (List.mem_cons_self _ _)
      · have hd : (p1 :: p2 :: p3 :: ps).dropLast = p1 :: (p2 :: p3 :: ps).dropLast := rfl
        have hne2 : (p2 :: p3 :: ps).dropLast ≠ [] := by
          rw [show (p2 :: p3 :: ps).dropLast = p2 :: (p3 :: ps).dropLast from rfl]
          exact List.cons_ne_nil _ _
        rw [hd, joinWithChar_cons '-' p1 _ hne2]
        rw [joinWithChar_cons '-' p1 _ (List.cons_ne_nil p2 (p3 :: ps))] at hl
        rw [← hl]
        cases p1 <;> simp
  · left
    simp only [dashRewrite, if_neg hcond]

/-- C10: `normalizeCaseNumber` is idempotent: once a leading Latin A/a has
become the Cyrillic А and a dash-separated number without a slash has had
its final part turned into a `/year` suffix, a second application changes
nothing (the produced slash disables the dash rewrite, and the produced
leading character is never a Latin A/a). -/
theorem normalizeCaseNumber_idem (s : String) :
    normalizeCaseNumber (normalizeCaseNumber s) = normalizeCaseNumber s := by
  by_cases hs : s = ""
  · subst hs; rfl
  · have hdata : normalizeCaseNumber s = ⟨dashRewrite (replLead s.data)⟩ := by
      simp [normalizeCaseNumber, hs]
    set n := replLead s.data with hn
    have hh := replLead_head s.data
    rw [← hn] at hh
    rcases dashRewrite_cases n with heq | ⟨hmem, hhead⟩
    · rw [hdata, heq]
      have hne : (String.mk n) ≠ "" := by
        intro h0
        have h1 : n = [] := by
          have h2 := congrArg String.data h0
          simpa using h2
        have h3 : s.data = [] := (replLead_nil_iff s.data).mp (hn ▸ h1)
        exact hs (String.ext h3)
      have hstep : normalizeCaseNumber (String.mk n) = ⟨dashRewrite (replLead n)⟩ := by
        simp [normalizeCaseNumber, hne]
      rw [hstep, replLead_id n hh.1 hh.2, heq]
    · rw [hdata]
      have hner : (String.mk (dashRewrite n)) ≠ "" := by
        intro h0
        have h1 : dashRewrite n = [] := by
          have h2 := congrArg String.data h0
          simpa using h2
        rw [h1] at hmem
        cases hmem
      have hstep : normalizeCaseNumber (String.mk (dashRewrite n))
          = ⟨dashRewrite (replLead (dashRewrite n))⟩ := by
        simp [normalizeCaseNumber, hner]
      rw [hstep]
      have hhr : replLead (dashRewrite n) = dashRewrite n := by
        apply replLead_id
        · rw [hhead]; exact hh.1
        · rw [hhead]; exact hh.2
      rw [hhr]
      rw [dashRewrite_id_of_mem _ hmem]

theorem dropWhile_of_head_not (p : Char → Bool) (l : List Char)
    (h : ∀ c, l.head? = some c → p c = false) : l.dropWhile p = l := by
  cases l with
  | nil => rfl
  | cons c rest => simp [List.dropWhile_cons, h c rfl]

theorem trimData_id_of_edges (l : List Char)
    (h1 : ∀ c, l.head? = some c → jsIsWs c = false)
    (h2 : ∀ c, l.getLast? = some c → jsIsWs c = false) : trimData l = l := by
  rw [trimData, dropWhile_of_head_not _ l h1,
    dropWhile_of_head_not _ l.reverse (by
      intro c hc
      rw [List.head?_reverse] at hc
      exact h2 c hc),
    List.reverse_reverse]

theorem splitOnChar_no_sep (sep : Char) (l : List Char)
    (h : ∀ c ∈ l, c ≠ sep) : splitOnChar sep l = [l] := by
  induction l with
  | nil => rfl
  | cons c rest ih =>
      have hc : c ≠ sep := h c (List.mem_cons_self c rest)
      simp only [splitOnChar, ih (fun d hd => h d (List.mem_cons_of_mem c hd)), if_neg hc]

theorem splitOnChar_append_sep (sep : Char) (p rest : List Char)
    (h : ∀ c ∈ p, c ≠ sep) :
    splitOnChar sep (p ++ sep :: rest) = p :: splitOnChar sep rest := by
  induction p with
  | nil =>
      simp only [List.nil_append, splitOnChar]
      cases hq : splitOnChar sep rest with
      | nil => exact absurd hq (splitOnChar_ne_nil sep rest)
      | cons s ss => simp
  | cons c p' ih =>
      have hc : c ≠ sep := h c (List.mem_cons_self c p')
      simp only [List.cons_append, splitOnChar, List.append_eq,
        ih (fun d hd => h d (List.mem_cons_of_mem c hd)), if_neg hc]

theorem split_join_inverse (sep : Char) (parts : List (List Char))
    (hne : parts ≠ []) (h : ∀ p ∈ parts, ∀ c ∈ p, c ≠ sep) :
    splitOnChar sep (joinWithChar sep parts) = parts := by
  induction parts with
  | nil => exact absurd rfl hne
  | cons p ps ih =>
      cases ps with
      | nil =>
          show splitOnChar sep (joinWithChar sep [p]) = [p]
          exact splitOnChar_no_sep sep p (h p (List.mem_cons_self p []))
      | cons q qs =>
          rw [joinWithChar_cons sep p (q :: qs) (List.cons_ne_nil q qs),
            splitOnChar_append_sep sep p _ (h p (List.mem_cons_self p (q :: qs))),
            ih (List.cons_ne_nil q qs) (fun r hr c hc => h r (List.mem_cons_of_mem p hr) c hc)]

theorem joinWithChar_head (sep : Char) (p : List Char) (ps : List (List Char))
    (hp : p ≠ []) : (joinWithChar sep (p :: ps)).head? = p.head? := by
  cases ps with
  | nil => rfl
  | cons q qs =>
      rw [joinWithChar_cons sep p _ (List.cons_ne_nil q qs)]
      exact List.head?_append_of_ne_nil p hp

theorem joinWithChar_getLast (sep : Char) (parts : List (List Char)) (q : List Char)
    (hq : parts.getLast? = some q) (hqne : q ≠ []) :
    (joinWithChar sep parts).getLast? = q.getLast? := by
  induction parts with
  | nil => cases hq
  | cons p ps ih =>
      cases ps with
      | nil =>
          have hpq : p = q := by simpa using hq
          subst hpq
          rfl
      | cons r rs =>
          have hq2 : (r :: rs).getLast? = some q := by
            rw [← hq, List.getLast?_cons_cons]
          have hJ := ih hq2
          have hJne : joinWithChar sep (r :: rs) ≠ [] := by
            intro h0
            rw [h0] at hJ
            have : q.getLast? = none := hJ.symm
            rw [List.getLast?_eq_none_iff] at this
            exact hqne this
          rw [joinWithChar_cons sep p _ (List.cons_ne_nil r rs),
            List.getLast?_append_cons,
            show sep :: joinWithChar sep (r :: rs)
              = [sep] ++ joinWithChar sep (r :: rs) from rfl,
            List.getLast?_append_of_ne_nil [sep] hJne, hJ]

theorem jsonl_foldl {α : Type} (stringify : α → String) (parse : String → Option α)
    (getCN : α → String) (setCN : α → String → α) (entries acc : List α)
    (hsh : ∀ e ∈ entries, ∃ mid, (stringify e).data = lbrace :: mid ++ [rbrace])
    (hparse : ∀ e ∈ entries, parse (stringify e) = some e)
    (hnorm : ∀ e ∈ entries, setCN e (normalizeCaseNumber (getCN e)) = e) :
    (entries.map (fun e => (stringify e).data)).foldl
        (jsonlLineStep parse getCN setCN) acc
      = acc ++ entries := by
  induction entries generalizing acc with
  | nil => simp
  | cons e es ih =>
      obtain ⟨mid, hm⟩ := hsh e (List.mem_cons_self e es)
      have htrim : trimData (stringify e).data = (stringify e).data := by
        apply trimData_id_of_edges
        · intro c hc
          rw [hm] at hc
          injection hc with hc
          rw [← hc]
          decide
        · intro c hc
          rw [hm, show lbrace :: mid ++ [rbrace] = (lbrace :: mid) ++ [rbrace] from rfl,
            List.getLast?_concat] at hc
          injection hc with hc
          rw [← hc]
          decide
      have hne : stringify e ≠ "" := by
        intro h0
        have h1 := congrArg String.data h0
        rw [hm] at h1
        cases h1
      have hhead : (stringify e).data.head? = some lbrace := by rw [hm]; rfl
      have he2 : (if getCN e = "" then e
          else setCN e (normalizeCaseNumber (getCN e))) = e := by
        by_cases hcn : getCN e = ""
        · rw [if_pos hcn]
        · rw [if_neg hcn, hnorm e (List.mem_cons_self e es)]
      have hmk : (⟨(stringify e).data⟩ : String) = stringify e := rfl
      have hstep : jsonlLineStep parse getCN setCN acc (stringify e).data = acc ++ [e] := by
        simp only [jsonlLineStep, htrim, hmk]
        rw [if_neg hne, if_neg (not_not_intro hhead), hparse e (List.mem_cons_self e es)]
        simp only [he2]
      rw [List.map_cons, List.foldl_cons, hstep,
        ih (acc ++ [e]) (fun x hx => hsh x (List.mem_cons_of_mem e hx))
          (fun x hx => hparse x (List.mem_cons_of_mem e hx))
          (fun x hx => hnorm x (List.mem_cons_of_mem e hx))]
      simp

/-- C9: `toJSONL` emits exactly one serialized record per line joined by
single newlines with no pretty-printing, and `fromJSONL` applied to that
output recovers one entry per input record, provided the serializer emits
single-line brace-delimited objects, parsing inverts serialization, and
each record's case number is already in normalized form. -/
theorem jsonl_round_trip {α : Type} (stringify : α → String)
    (parse : String → Option α) (getCN : α → String) (setCN : α → String → α)
    (entries : List α)
    (hshape : ∀ e ∈ entries, ∃ mid,
      (stringify e).data = lbrace :: mid ++ [rbrace] ∧ '\n' ∉ mid)
    (hparse : ∀ e ∈ entries, parse (stringify e) = some e)
    (hnorm : ∀ e ∈ entries, setCN e (normalizeCaseNumber (getCN e)) = e) :
    fromJSONL parse getCN setCN (toJSONL stringify entries) = entries := by
  cases entries with
  | nil => rfl
  | cons e es =>
      have hnoNl : ∀ x ∈ e :: es, ∀ c ∈ (stringify x).data, c ≠ '\n' := by
        intro x hx c hc
        obtain ⟨mid, hmx, hmn⟩ := hshape x hx
        rw [hmx] at hc
        rcases List.mem_cons.mp hc with h | h
        · subst h; decide
        · rcases List.mem_append.mp h with h2 | h2
          · intro he; subst he; exact hmn h2
          · rw [List.mem_singleton] at h2
            subst h2; decide
      obtain ⟨mid, hm, -⟩ := hshape e (List.mem_cons_self e es)
      have hp1ne : (stringify e).data ≠ [] := by
        rw [hm]; exact List.cons_ne_nil _ _
      rcases hg : (e :: es).getLast? with _ | le
      · rw [List.getLast?_eq_none_iff] at hg
        cases hg
      · have hle : le ∈ e :: es := List.mem_of_mem_getLast? hg
        obtain ⟨midl, hml, -⟩ := hshape le hle
        have hq : ((e :: es).map (fun x => (stringify x).data)).getLast?
            = some (stringify le).data := by
          rw [List.getLast?_map, hg]
          rfl
        have hqne : (stringify le).data ≠ [] := by
          rw [hml]; exact List.cons_ne_nil _ _
        have hLhead : (joinWithChar '\n'
            ((e :: es).map (fun x => (stringify x).data))).head? = some lbrace := by
          rw [List.map_cons, joinWithChar_head '\n' _ _ hp1ne, hm]
          rfl
        have hLlast : (joinWithChar '\n'
            ((e :: es).map (fun x => (stringify x).data))).getLast? = some rbrace := by
          rw [joinWithChar_getLast '\n' _ _ hq hqne, hml,
            show lbrace :: midl ++ [rbrace] = (lbrace :: midl) ++ [rbrace] from rfl,
            List.getLast?_concat]
        have htrimL : trimData (joinWithChar '\n'
            ((e :: es).map (fun x => (stringify x).data)))
            = joinWithChar '\n' ((e :: es).map (fun x => (stringify x).data)) := by
          apply trimData_id_of_edges
          · intro c hc
            rw [hLhead] at hc
            injection hc with hc
            rw [← hc]; decide
          · intro c hc
            rw [hLlast] at hc
            injection hc with hc
            rw [← hc]; decide
        have hsplit : splitOnChar '\n' (joinWithChar '\n'
            ((e :: es).map (fun x => (stringify x).data)))
            = (e :: es).map (fun x => (stringify x).data) := by
          apply split_join_inverse
          · simp
          · intro p hp c hc
            obtain ⟨x, hx, hpx⟩ := List.mem_map.mp hp
            rw [← hpx] at hc
            exact hnoNl x hx c hc
        show (splitOnChar '\n' (jsTrim ⟨joinWithChar '\n'
            ((e :: es).map (fun x => (stringify x).data))⟩).data).foldl
              (jsonlLineStep parse getCN setCN) [] = e :: es
        rw [show (jsTrim ⟨joinWithChar '\n'
            ((e :: es).map (fun x => (stringify x).data))⟩).data
            = trimData (joinWithChar '\n' ((e :: es).map (fun x => (stringify x).data)))
            from rfl, htrimL, hsplit,
          jsonl_foldl stringify parse getCN setCN (e :: es) []
            (fun x hx => ⟨(hshape x hx).choose, (hshape x hx).choose_spec.1⟩) hparse hnorm]
        rfl

/-- Concrete record type for exercising the round trip: just the
`case_number` field. -/
structure CaseRec where
  cn : String
deriving DecidableEq

/-- A concrete single-line serializer placing the case number between
braces. -/
def recStringify (e : CaseRec) : String := ⟨lbrace :: e.cn.data ++ [rbrace]⟩

/-- The matching parser: strip the surrounding braces. -/
def recParse (s : String) : Option CaseRec := some ⟨⟨(s.data.drop 1).dropLast⟩⟩

/-- Field access for `case_number`. -/
def recGetCN (e : CaseRec) : String := e.cn

/-- Field update for `case_number`. -/
def recSetCN (_ : CaseRec) (c : String) : CaseRec := ⟨c⟩

/-- Two records with already-normalized case numbers. -/
def recEntries : List CaseRec := [⟨"А40-1/2020"⟩, ⟨"А41-2/2021"⟩]

theorem jsonl_round_trip_witness :
    fromJSONL recParse recGetCN recSetCN (toJSONL recStringify recEntries)
      = recEntries := by
  apply jsonl_round_trip recStringify recParse recGetCN recSetCN recEntries
  · intro e he
    refine ⟨e.cn.data, rfl, ?_⟩
    simp only [recEntries, List.mem_cons, List.not_mem_nil, or_false] at he
    rcases he with h | h <;> subst h <;> decide
  · intro e he
    simp only [recEntries, List.mem_cons, List.not_mem_nil, or_false] at he
    rcases he with h | h <;> subst h <;> decide
  · intro e he
    simp only [recEntries, List.mem_cons, List.not_mem_nil, or_false] at he
    rcases he with h | h <;> subst h <;> decide

theorem dropWhile_head_false (p : Char → Bool) (l : List Char) (c : Char)
    (h : (l.dropWhile p).head? = some c) : p c = false := by
  induction l with
  | nil => cases h
  | cons d rest ih =>
      rw [List.dropWhile_cons] at h
      by_cases hd : p d = true
      · rw [if_pos hd] at h
        exact ih h
      · rw [if_neg hd] at h
        injection h with h
        subst h
        simpa using hd


theorem trimData_prefix (l : List Char) : trimData l <+: l.dropWhile jsIsWs := by
  have h1 : (l.dropWhile jsIsWs).reverse.dropWhile jsIsWs <:+ (l.dropWhile jsIsWs).reverse :=
    List.dropWhile_suffix jsIsWs
  have h2 : ((l.dropWhile jsIsWs).reverse.dropWhile jsIsWs).reverse.reverse
      <:+ (l.dropWhile jsIsWs).reverse := by
    simpa using h1
  exact List.reverse_suffix.mp h2

theorem trimData_head_ws (l : List Char) (c : Char)
    (h : (trimData l).head? = some c) : jsIsWs c = false := by
  have hpre : trimData l <+: l.dropWhile jsIsWs := trimData_prefix l
  obtain ⟨t, ht⟩ := hpre
  have hne : trimData l ≠ [] := by
    intro h0
    rw [h0] at h
    cases h
  have : (l.dropWhile jsIsWs).head? = some c := by
    rw [← ht, List.head?_append_of_ne_nil _ hne, h]
  exact dropWhile_head_false jsIsWs l c this

theorem trimData_getLast_ws (l : List Char) (c : Char)
    (h : (trimData l).getLast? = some c) : jsIsWs c = false := by
  rw [trimData] at h
  have h2 : ((l.dropWhile jsIsWs).reverse.dropWhile jsIsWs).head? = some c := by
    rw [← List.head?_reverse] at h
    simpa using h
  exact dropWhile_head_false jsIsWs _ c h2

theorem trimData_idem (l : List Char) : trimData (trimData l) = trimData l :=
  trimData_id_of_edges _ (trimData_head_ws l) (trimData_getLast_ws l)

theorem substChar_id (c : Char) (h : isTableChar c = false) : substChar c = [c] := by
  simp only [isTableChar, Bool.or_eq_false_iff, decide_eq_false_iff_not] at h
  obtain ⟨⟨⟨⟨⟨⟨⟨⟨⟨⟨⟨⟨h1, h2⟩, h3⟩, h4⟩, h5⟩, h6⟩, h7⟩, h8⟩, h9⟩, h10⟩, h11⟩, h12⟩, h13⟩ := h
  simp only [substChar, if_neg h1, if_neg h2, if_neg h3, if_neg h4, if_neg h5, if_neg h6,
    if_neg h7, if_neg h8, if_neg h9, if_neg h10, if_neg h11, if_neg h12, if_neg h13]

theorem flatMap_subst_id (l : List Char) (h : ∀ c ∈ l, isTableChar c = false) :
    l.flatMap substChar = l := by
  induction l with
  | nil => rfl
  | cons c rest ih =>
      rw [List.flatMap_cons, substChar_id c (h c (List.mem_cons_self c rest)),
        ih (fun d hd => h d (List.mem_cons_of_mem c hd))]
      rfl

theorem collapseNlAux_id_of_noNl (l : List Char) (h : ∀ c ∈ l, c ≠ '\n') :
    ∀ k, collapseNlAux k l = l := by
  induction l with
  | nil => intro k; rfl
  | cons c rest ih =>
      intro k
      have hc : c ≠ '\n' := h c (List.mem_cons_self c rest)
      simp only [collapseNlAux, if_neg hc, ih (fun d hd => h d (List.mem_cons_of_mem c hd)) 0]

theorem rwbp_subset (l : List Char) (c : Char) (h : c ∈ rwbp l) : c ∈ l := by
  induction l with
  | nil => cases h
  | cons d rest ih =>
      rw [rwbp] at h
      by_cases hd : (jsIsWs d && wsThenPunct rest) = true
      · rw [if_pos hd] at h
        exact List.mem_cons_of_mem d (ih h)
      · rw [if_neg hd] at h
        rcases List.mem_cons.mp h with h2 | h2
        · rw [h2]; exact List.mem_cons_self d rest
        · exact List.mem_cons_of_mem d (ih h2)

theorem spa_mem (l : List Char) (c : Char) (h : c ∈ spa l) : c = ' ' ∨ c ∈ l := by
  induction l using spa.induct with
  | case1 => cases h
  | case2 d => right; exact h
  | case3 c1 c2 rest2 hcond ih =>
      rw [spa, if_pos hcond] at h
      rcases List.mem_cons.mp h with h2 | h2
      · right; rw [h2]; exact List.mem_cons_self _ _
      rcases List.mem_cons.mp h2 with h3 | h3
      · left; exact h3
      rcases List.mem_cons.mp h3 with h4 | h4
      · right; rw [h4]; exact List.mem_cons_of_mem _ (List.mem_cons_self _ _)
      · rcases ih h4 with h5 | h5
        · left; exact h5
        · right; exact List.mem_cons_of_mem _ (List.mem_cons_of_mem _ h5)
  | case4 c1 c2 rest2 hcond ih =>
      rw [spa, if_neg hcond] at h
      rcases List.mem_cons.mp h with h2 | h2
      · right; rw [h2]; exact List.mem_cons_self _ _
      · rcases ih h2 with h3 | h3
        · left; exact h3
        · right; exact List.mem_cons_of_mem _ h3

theorem trimData_subset (l : List Char) (c : Char) (h : c ∈ trimData l) : c ∈ l := by
  obtain ⟨t, ht⟩ := trimData_prefix l
  have h1 : c ∈ l.dropWhile jsIsWs := by
    rw [← ht]
    exact List.mem_append_left t h
  exact (List.dropWhile_suffix jsIsWs).subset h1

theorem map_tab_id (l : List Char) (h : ∀ c ∈ l, c ≠ '\t') :
    l.map (fun c => if c = '\t' then ' ' else c) = l := by
  induction l with
  | nil => rfl
  | cons c rest ih =>
      rw [List.map_cons, if_neg (h c (List.mem_cons_self c rest)),
        ih (fun d hd => h d (List.mem_cons_of_mem c hd))]

/-- No whitespace character in the list has sentence punctuation as its
next non-whitespace character: exactly the lists on which the
whitespace-before-punctuation replacement is the identity. -/
def okR : List Char → Bool
  | [] => true
  | c :: rest => (!(jsIsWs c && wsThenPunct rest)) && okR rest

theorem okR_rwbp_id (l : List Char) (h : okR l = true) : rwbp l = l := by
  induction l with
  | nil => rfl
  | cons c rest ih =>
      rw [okR, Bool.and_eq_true, Bool.not_eq_true'] at h
      rw [rwbp, if_neg (by rw [h.1]; exact Bool.false_ne_true), ih h.2]

theorem wsThenPunct_rwbp (l : List Char) : wsThenPunct (rwbp l) = wsThenPunct l := by
  induction l with
  | nil => rfl
  | cons c rest ih =>
      rw [rwbp]
      by_cases hc : (jsIsWs c && wsThenPunct rest) = true
      · rw [if_pos hc, ih]
        rw [Bool.and_eq_true] at hc
        rw [wsThenPunct, if_pos hc.1, hc.2]
      · rw [if_neg hc, wsThenPunct, wsThenPunct]
        by_cases hw : jsIsWs c = true
        · rw [if_pos hw, if_pos hw, ih]
        · rw [if_neg hw, if_neg hw]

theorem okR_rwbp (l : List Char) : okR (rwbp l) = true := by
  induction l with
  | nil => rfl
  | cons c rest ih =>
      rw [rwbp]
      by_cases hc : (jsIsWs c && wsThenPunct rest) = true
      · rw [if_pos hc]; exact ih
      · rw [if_neg hc, okR, Bool.and_eq_true]
        refine ⟨?_, ih⟩
        rw [wsThenPunct_rwbp]
        rw [Bool.not_eq_true']
        exact Bool.not_eq_true _ ▸ (by simpa using hc)

theorem wsThenPunct_append_true (p t : List Char) (h : wsThenPunct p = true) :
    wsThenPunct (p ++ t) = true := by
  induction p with
  | nil => cases h
  | cons c rest ih =>
      rw [wsThenPunct] at h
      rw [List.cons_append, wsThenPunct]
      by_cases hw : jsIsWs c = true
      · rw [if_pos hw] at h ⊢
        exact ih h
      · rw [if_neg hw] at h ⊢
        exact h

theorem okR_prefix (p t : List Char) (h : okR (p ++ t) = true) : okR p = true := by
  induction p with
  | nil => rfl
  | cons c rest ih =>
      rw [List.cons_append, okR, Bool.and_eq_true] at h
      rw [okR, Bool.and_eq_true]
      refine ⟨?_, ih h.2⟩
      rw [Bool.not_eq_true'] at h ⊢
      rw [Bool.and_eq_false_iff] at h ⊢
      rcases h.1 with h2 | h2
      · left; exact h2
      · right
        by_cases hwp : wsThenPunct rest = true
        · rw [wsThenPunct_append_true rest t hwp] at h2
          cases h2
        · simpa using hwp

theorem okR_tail (c : Char) (rest : List Char) (h : okR (c :: rest) = true) :
    okR rest = true := by
  rw [okR, Bool.and_eq_true] at h
  exact h.2

theorem okR_dropWhile (p : Char → Bool) (l : List Char) (h : okR l = true) :
    okR (l.dropWhile p) = true := by
  induction l with
  | nil => exact h
  | cons c rest ih =>
      rw [List.dropWhile_cons]
      by_cases hc : p c = true
      · rw [if_pos hc]
        exact ih (okR_tail c rest h)
      · rw [if_neg hc]
        exact h

theorem okR_trimData (l : List Char) (h : okR l = true) : okR (trimData l) = true := by
  obtain ⟨t, ht⟩ := trimData_prefix l
  exact okR_prefix _ t (by rw [ht]; exact okR_dropWhile jsIsWs l h)

theorem wsThenPunct_spa (l : List Char) : wsThenPunct (spa l) = wsThenPunct l := by
  induction l using spa.induct with
  | case1 => rfl
  | case2 c => rfl
  | case3 c1 c2 rest2 hcond ih =>
      rw [Bool.and_eq_true] at hcond
      have hw : jsIsWs c1 = false := punct_not_ws c1 hcond.1
      simp only [spa, if_pos (Bool.and_eq_true _ _ |>.mpr hcond)]
      simp [wsThenPunct, hw]
  | case4 c1 c2 rest2 hcond ih =>
      simp only [spa, if_neg hcond]
      rw [wsThenPunct, wsThenPunct]
      by_cases hw : jsIsWs c1 = true
      · rw [if_pos hw, if_pos hw, ih]
      · rw [if_neg hw, if_neg hw]

theorem okR_spa (l : List Char) (h : okR l = true) : okR (spa l) = true := by
  induction l using spa.induct with
  | case1 => rfl
  | case2 c => exact h
  | case3 c1 c2 rest2 hcond ih =>
      rw [Bool.and_eq_true] at hcond
      have hw1 : jsIsWs c1 = false := punct_not_ws c1 hcond.1
      have hw2 : jsIsWs c2 = false := ruAlnum_not_ws c2 hcond.2
      have hp2 : isPunct c2 = false := ruAlnum_not_punct c2 hcond.2
      have hrest : okR rest2 = true := okR_tail _ _ (okR_tail _ _ h)
      simp only [spa, if_pos (Bool.and_eq_true _ _ |>.mpr hcond)]
      rw [okR, okR, okR, Bool.and_eq_true, Bool.and_eq_true, Bool.and_eq_true]
      refine ⟨by rw [hw1]; rfl, ?_, by rw [hw2]; rfl, ih hrest⟩
      rw [Bool.not_eq_true', Bool.and_eq_false_iff]
      right
      rw [wsThenPunct, if_neg (by rw [hw2]; exact Bool.false_ne_true)]
      exact hp2
  | case4 c1 c2 rest2 hcond ih =>
      have hrest : okR (c2 :: rest2) = true := okR_tail _ _ h
      simp only [spa, if_neg hcond]
      rw [okR, Bool.and_eq_true]
      refine ⟨?_, ih hrest⟩
      rw [wsThenPunct_spa]
      rw [okR, Bool.and_eq_true] at h
      exact h.1

/-- No sentence punctuation character in the list is immediately followed
by a Cyrillic letter or digit: exactly the lists on which the
space-insertion replacement is the identity. -/
def okS : List Char → Bool
  | [] => true
  | [_] => true
  | c1 :: c2 :: rest => (!(isPunct c1 && isRuAlnum c2)) && okS (c2 :: rest)

theorem okS_spa_id (l : List Char) (h : okS l = true) : spa l = l := by
  induction l with
  | nil => rfl
  | cons c rest ih =>
      cases rest with
      | nil => rfl
      | cons c2 rest2 =>
          rw [show okS (c :: c2 :: rest2)
              = ((!(isPunct c && isRuAlnum c2)) && okS (c2 :: rest2)) from rfl,
            Bool.and_eq_true, Bool.not_eq_true'] at h
          have hneg : ¬ ((isPunct c && isRuAlnum c2) = true) := by
            rw [h.1]; exact Bool.false_ne_true
          simp only [spa, if_neg hneg]
          rw [ih h.2]

theorem okS_cons_eq (c1 c2 : Char) (rest : List Char) :
    okS (c1 :: c2 :: rest) = ((!(isPunct c1 && isRuAlnum c2)) && okS (c2 :: rest)) := rfl

theorem okS_tail (c : Char) (rest : List Char) (h : okS (c :: rest) = true) :
    okS rest = true := by
  cases rest with
  | nil => rfl
  | cons d w =>
      rw [okS_cons_eq, Bool.and_eq_true] at h
      exact h.2

theorem okS_cons_punct_false (a : Char) (l : List Char) (ha : isPunct a = false)
    (h : okS l = true) : okS (a :: l) = true := by
  cases l with
  | nil => rfl
  | cons d w =>
      rw [okS_cons_eq, Bool.and_eq_true]
      exact ⟨by rw [ha]; rfl, h⟩

theorem okS_cons_head_not_alnum (a : Char) (l : List Char)
    (hb : ∀ b, l.head? = some b → isRuAlnum b = false) (h : okS l = true) :
    okS (a :: l) = true := by
  cases l with
  | nil => rfl
  | cons d w =>
      rw [okS_cons_eq, Bool.and_eq_true]
      refine ⟨?_, h⟩
      rw [hb d rfl, Bool.and_false]
      rfl

theorem spa_head (l : List Char) : (spa l).head? = l.head? := by
  induction l using spa.induct with
  | case1 => rfl
  | case2 c => rfl
  | case3 c1 c2 rest2 hcond ih => simp only [spa, if_pos hcond]; rfl
  | case4 c1 c2 rest2 hcond ih => simp only [spa, if_neg hcond]; rfl

theorem okS_spa (l : List Char) : okS (spa l) = true := by
  induction l using spa.induct with
  | case1 => rfl
  | case2 c => rfl
  | case3 c1 c2 rest2 hcond ih =>
      rw [Bool.and_eq_true] at hcond
      simp only [spa, if_pos (Bool.and_eq_true _ _ |>.mpr hcond)]
      apply okS_cons_head_not_alnum c1 _ (by intro b hb; injection hb with hb; rw [← hb]; decide)
      apply okS_cons_punct_false ' ' _ (by decide)
      exact okS_cons_punct_false c2 _ (ruAlnum_not_punct c2 hcond.2) ih
  | case4 c1 c2 rest2 hcond ih =>
      simp only [spa, if_neg hcond]
      rw [Bool.and_eq_true, Classical.not_and_iff_or_not_not] at hcond
      rcases hcond with h1 | h2
      · exact okS_cons_punct_false c1 _ (by simpa using h1) ih
      · refine okS_cons_head_not_alnum c1 _ ?_ ih
        intro b hb
        rw [spa_head] at hb
        injection hb with hb
        rw [← hb]
        simpa using h2

theorem okS_prefix (p t : List Char) (h : okS (p ++ t) = true) : okS p = true := by
  induction p with
  | nil => rfl
  | cons c rest ih =>
      cases rest with
      | nil => rfl
      | cons d w =>
          rw [List.cons_append, List.cons_append, okS_cons_eq, Bool.and_eq_true] at h
          rw [okS_cons_eq, Bool.and_eq_true]
          exact ⟨h.1, ih h.2⟩

theorem okS_dropWhile (p : Char → Bool) (l : List Char) (h : okS l = true) :
    okS (l.dropWhile p) = true := by
  induction l with
  | nil => exact h
  | cons c rest ih =>
      rw [List.dropWhile_cons]
      by_cases hc : p c = true
      · rw [if_pos hc]
        exact ih (okS_tail c rest h)
      · rw [if_neg hc]
        exact h

theorem okS_trimData (l : List Char) (h : okS l = true) : okS (trimData l) = true := by
  obtain ⟨t, ht⟩ := trimData_prefix l
  exact okS_prefix _ t (by rw [ht]; exact okS_dropWhile jsIsWs l h)

theorem cleanPipeline_restricted (l : List Char)
    (hnl : ∀ c ∈ l, c ≠ '\n') (htb : ∀ c ∈ l, isTableChar c = false) :
    cleanPipeline l = trimData (spa (rwbp
      ((l.filter (fun c => !isStripCtrl c)).map
        (fun c => if c = '\t' then ' ' else c)))) := by
  have hmem2 : ∀ c ∈ (l.filter (fun c => !isStripCtrl c)).map
      (fun c => if c = '\t' then ' ' else c), c ≠ '\n' ∧ isTableChar c = false := by
    intro c hc
    obtain ⟨d, hd, hdc⟩ := List.mem_map.mp hc
    have hdl : d ∈ l := List.mem_of_mem_filter hd
    by_cases ht : d = '\t'
    · rw [← hdc, ht]
      exact ⟨by decide, by decide⟩
    · rw [← hdc, if_neg ht]
      exact ⟨hnl d hdl, htb d hdl⟩
  have hmem4 : ∀ c ∈ spa (rwbp ((l.filter (fun c => !isStripCtrl c)).map
      (fun c => if c = '\t' then ' ' else c))), c ≠ '\n' ∧ isTableChar c = false := by
    intro c hc
    rcases spa_mem _ c hc with h | h
    · rw [h]
      exact ⟨by decide, by decide⟩
    · exact hmem2 c (rwbp_subset _ c h)
  have hcol := collapseNlAux_id_of_noNl _ (fun c hc => (hmem4 c hc).1) 0
  have hsplit := splitOnChar_no_sep '\n' _ (fun c hc => (hmem4 c hc).1)
  have hsub := flatMap_subst_id (trimData (spa (rwbp ((l.filter (fun c => !isStripCtrl c)).map
      (fun c => if c = '\t' then ' ' else c)))))
    (fun c hc => (hmem4 c (trimData_subset _ c hc)).2)
  show (trimData (joinWithChar '\n' ((splitOnChar '\n' (collapseNl (spa (rwbp
      ((l.filter (fun c => !isStripCtrl c)).map
        (fun c => if c = '\t' then ' ' else c)))))).map trimData))).flatMap substChar = _
  rw [show collapseNl (spa (rwbp ((l.filter (fun c => !isStripCtrl c)).map
      (fun c => if c = '\t' then ' ' else c)))) = collapseNlAux 0 _ from rfl, hcol, hsplit]
  rw [show ([spa (rwbp ((l.filter (fun c => !isStripCtrl c)).map
      (fun c => if c = '\t' then ' ' else c)))].map trimData)
      = [trimData (spa (rwbp ((l.filter (fun c => !isStripCtrl c)).map
        (fun c => if c = '\t' then ' ' else c))))] from rfl]
  rw [show joinWithChar '\n' [trimData (spa (rwbp ((l.filter (fun c => !isStripCtrl c)).map
      (fun c => if c = '\t' then ' ' else c))))]
      = trimData (spa (rwbp ((l.filter (fun c => !isStripCtrl c)).map
        (fun c => if c = '\t' then ' ' else c)))) from rfl]
  rw [trimData_idem]
  exact hsub

/-- A string whose blank lines only become empty after per-line trimming:
the first normalizer pass leaves three newlines, the second collapses
them. -/
def c2nlIn : String := "a\n \n \nb"

/-- An ellipsis before a Cyrillic letter: the substitution table rewrites
it to three dots only after the punctuation-spacing step has run, so the
second pass inserts a space the first did not. -/
def c2ellIn : String := "…б"

/-- C2 counterexample: `cleanText` is not idempotent.  A second
application further collapses the blank lines of `"a\n \n \nb"` (per-line
trimming runs after the newline collapse) and inserts a space into the
`"...б"` produced from `"…б"` (the substitution table runs after the
punctuation-spacing step). -/
theorem cleanText_not_idempotent :
    cleanText (cleanText c2nlIn) ≠ cleanText c2nlIn ∧
      cleanText (cleanText c2ellIn) ≠ cleanText c2ellIn := by
  constructor
  · decide
  · decide

/-- C2 (amended): the normalizer is idempotent on strings containing no
newline and none of the thirteen substitution-table characters; on
general inputs a second application can differ, through the two
interactions exhibited by the counterexample. -/
theorem cleanText_idem_restricted (s : String)
    (h : ∀ c ∈ s.data, c ≠ '\n' ∧ isTableChar c = false) :
    cleanText (cleanText s) = cleanText s := by
  by_cases hs : s = ""
  · subst hs; rfl
  · have hnl : ∀ c ∈ s.data, c ≠ '\n' := fun c hc => (h c hc).1
    have htb : ∀ c ∈ s.data, isTableChar c = false := fun c hc => (h c hc).2
    have hct : cleanText s = ⟨cleanPipeline s.data⟩ := by simp [cleanText, hs]
    rw [hct, cleanPipeline_restricted s.data hnl htb]
    set w := (s.data.filter (fun c => !isStripCtrl c)).map
      (fun c => if c = '\t' then ' ' else c) with hwdef
    have hwmem : ∀ c ∈ w, (!isStripCtrl c) = true ∧ c ≠ '\t' ∧ c ≠ '\n' ∧
        isTableChar c = false := by
      intro c hc
      rw [hwdef] at hc
      obtain ⟨d, hd, hdc⟩ := List.mem_map.mp hc
      have hdmem := List.mem_filter.mp hd
      by_cases ht : d = '\t'
      · rw [← hdc, ht]
        refine ⟨by decide, by decide, by decide, by decide⟩
      · rw [← hdc, if_neg ht]
        exact ⟨hdmem.2, ht, hnl d hdmem.1, htb d hdmem.1⟩
    have humem : ∀ c ∈ trimData (spa (rwbp w)), (!isStripCtrl c) = true ∧ c ≠ '\t' ∧
        c ≠ '\n' ∧ isTableChar c = false := by
      intro c hc
      rcases spa_mem _ c (trimData_subset _ c hc) with h1 | h1
      · rw [h1]
        exact ⟨by decide, by decide, by decide, by decide⟩
      · exact hwmem c (rwbp_subset _ c h1)
    have hokR : okR (trimData (spa (rwbp w))) = true :=
      okR_trimData _ (okR_spa _ (okR_rwbp w))
    have hokS : okS (trimData (spa (rwbp w))) = true :=
      okS_trimData _ (okS_spa (rwbp w))
    by_cases hu0 : (⟨trimData (spa (rwbp w))⟩ : String) = ""
    · rw [hu0]
      rfl
    · have hcu : cleanText ⟨trimData (spa (rwbp w))⟩
          = ⟨cleanPipeline (trimData (spa (rwbp w)))⟩ := by
        unfold cleanText
        rw [if_neg hu0]
      have hfil : (trimData (spa (rwbp w))).filter (fun c => !isStripCtrl c)
          = trimData (spa (rwbp w)) :=
        List.filter_eq_self.mpr (fun c hc => (humem c hc).1)
      have hmap : (trimData (spa (rwbp w))).map (fun c => if c = '\t' then ' ' else c)
          = trimData (spa (rwbp w)) :=
        map_tab_id _ (fun c hc => (humem c hc).2.1)
      have hr : rwbp (trimData (spa (rwbp w))) = trimData (spa (rwbp w)) :=
        okR_rwbp_id _ hokR
      have hsp : spa (trimData (spa (rwbp w))) = trimData (spa (rwbp w)) :=
        okS_spa_id _ hokS
      have hcol := collapseNlAux_id_of_noNl (trimData (spa (rwbp w)))
        (fun c hc => (humem c hc).2.2.1) 0
      have hsplit := splitOnChar_no_sep '\n' (trimData (spa (rwbp w)))
        (fun c hc => (humem c hc).2.2.1)
      have htr : trimData (trimData (spa (rwbp w))) = trimData (spa (rwbp w)) :=
        trimData_idem _
      have hsub := flatMap_subst_id (trimData (spa (rwbp w)))
        (fun c hc => (humem c hc).2.2.2)
      have hpipe2 : cleanPipeline (trimData (spa (rwbp w))) = trimData (spa (rwbp w)) := by
        show (trimData (joinWithChar '\n' ((splitOnChar '\n' (collapseNl (spa (rwbp
            (((trimData (spa (rwbp w))).filter (fun c => !isStripCtrl c)).map
              (fun c => if c = '\t' then ' ' else c)))))).map trimData))).flatMap substChar
            = trimData (spa (rwbp w))
        rw [hfil, hmap, hr, hsp]
        have hcol2 : collapseNl (trimData (spa (rwbp w))) = trimData (spa (rwbp w)) := hcol
        rw [hcol2, hsplit]
        simp only [List.map_cons, List.map_nil]
        rw [htr]
        rw [show joinWithChar '\n' [trimData (spa (rwbp w))] = trimData (spa (rwbp w)) from rfl]
        rw [htr]
        exact hsub
      rw [hcu, hpipe2]

/-- A single-line string without substitution-table characters. -/
def c2wIn : String := "f ,b"

theorem cleanText_idem_restricted_witness :
    cleanText (cleanText c2wIn) = cleanText c2wIn :=
  cleanText_idem_restricted c2wIn (by decide)
